import Mathlib

/-!
Shallow embedding of the FFM (field-aware factorization machine) math kernel
from ffm-model.cpp of kaggle-outbrain-click-prediction.

Modelling conventions:
* C++ float arithmetic is idealized over the rationals.  The libm square
  root and the AVX approximate reciprocal square root have no rational
  counterpart, so the two passes take the scalar functions sqrtf and
  rsqrtf as parameters; theorems that need the relation between them
  assume rsqrtf x = (sqrtf x)⁻¹ explicitly.
* The flat aligned weight buffers become total functions ℕ → ℚ from flat
  addresses to stored scalars; an 8-lane AVX register becomes Fin 8 → ℚ,
  a vector load is load8, a vector store is store8.
* ffm_hash_bits comes from the header ffm-model.h, which is not part of
  the sources; all definitions take the hash width hb as a parameter, and
  hash_mask = 2 ^ hb - 1, so (index AND hash_mask) is index % 2 ^ hb and
  (index >> hb) is index / 2 ^ hb.
* The _mm_prefetch lookahead (lines 148-154 and 210-216 of the source) is
  a non-binding cache hint with no architectural effect, so it is omitted.
-/

namespace FFM

/-- A feature of one example: the combined (field << hash_bits | hash)
index together with its real value (struct ffm_feature). -/
structure Feature where
  index : ℕ
  value : ℚ
deriving DecidableEq

/-- align_bytes / sizeof(float) = 32 / 4. -/
def align_floats : ℕ := 8

/-- Number of fields (constant n_fields = 30). -/
def n_fields : ℕ := 30

/-- Latent dimension (constant n_dim = 14). -/
def n_dim : ℕ := 14

/-- n_dim rounded up to the vector width: ((n_dim - 1) / align_floats + 1) * align_floats. -/
def n_dim_aligned : ℕ := ((n_dim - 1) / align_floats + 1) * align_floats

/-- Stride between consecutive hashed feature ids in the weight tensor. -/
def index_stride : ℕ := n_fields * n_dim_aligned * 2

/-- Stride between consecutive fields inside one feature's slice. -/
def field_stride : ℕ := n_dim_aligned * 2

/-- The d values visited by the SIMD loop "for d = 0; d < n_dim; d += 8". -/
def d_steps : List ℕ := (List.range ((n_dim + align_floats - 1) / align_floats)).map (· * align_floats)

/-- test_mask_bit: (mask[i >> 6] >> (i & 63)) & 1, the mask modelled as the
word sequence ℕ → ℕ. -/
def test_mask_bit (mask : ℕ → ℕ) (i : ℕ) : ℕ :=
  mask (i / 64) / 2 ^ (i % 64) % 2

/-- Model state: hyperparameters, field-restriction bounds, bias pair,
interaction weight buffer and linear weight buffer (class ffm_model). -/
structure Model where
  eta : ℚ
  lambda : ℚ
  max_b_field : ℕ
  min_a_field : ℕ
  bias_w : ℚ
  bias_wg : ℚ
  weights : ℕ → ℚ
  linear_weights : ℕ → ℚ

/-- An 8-lane aligned vector load (_mm256_load_ps). -/
def load8 (w : ℕ → ℚ) (base : ℕ) : Fin 8 → ℚ :=
  fun l => w (base + l)

/-- An 8-lane aligned vector store (_mm256_store_ps). -/
def store8 (w : ℕ → ℚ) (base : ℕ) (v : Fin 8 → ℚ) : ℕ → ℚ :=
  fun k => if h : base ≤ k ∧ k < base + 8 then v ⟨k - base, by omega⟩ else w k

/-- Horizontal sum of an 8-lane register, in the exact association order of
the source's sum(): extract low half of (val + swapped halves), then two
hadd steps. -/
def hsum (v : Fin 8 → ℚ) : ℚ :=
  ((v 0 + v 4) + (v 1 + v 5)) + ((v 2 + v 6) + (v 3 + v 7))

/-- One mask-enabled pair's contribution in predict: the d-loop of lines
167-172, accumulating wa[d+l] * wb[d+l] * val into each lane l of the
running total. -/
def predict_pair (w : ℕ → ℚ) (wa wb : ℕ) (val : ℚ) (total : Fin 8 → ℚ) : Fin 8 → ℚ :=
  d_steps.foldl
    (fun t d =>
      let xmm_wa := load8 w (wa + d)
      let xmm_wb := load8 w (wb + d)
      fun l => t l + xmm_wa l * xmm_wb l * val)
    total

/-- The inner loop of predict (lines 140-173): fb runs over the features
before fa; the pair counter i increments once per completed iteration
(also for mask-skipped pairs), and the loop breaks without incrementing
when field_b exceeds max_b_field. -/
def predict_inner (m : Model) (hb : ℕ) (mask : ℕ → ℕ) (index_a field_a : ℕ)
    (value_a norm : ℚ) : List Feature → (Fin 8 → ℚ) → ℕ → ((Fin 8 → ℚ) × ℕ)
  | [], total, i => (total, i)
  | fb :: rest, total, i =>
    let index_b := fb.index % 2 ^ hb
    let field_b := fb.index / 2 ^ hb
    let value_b := fb.value
    if field_b > m.max_b_field then (total, i)
    else if test_mask_bit mask i = 0 then
      predict_inner m hb mask index_a field_a value_a norm rest total (i + 1)
    else
      let wa := index_a * index_stride + field_b * field_stride
      let wb := index_b * index_stride + field_a * field_stride
      predict_inner m hb mask index_a field_a value_a norm rest
        (predict_pair m.weights wa wb (value_a * value_b / norm) total) (i + 1)

/-- The outer loop of predict (lines 130-174): prev is the already-visited
part of the feature list (the iteration range of the inner loop); carries
linear_total, the 8-lane interaction accumulator and the pair counter. -/
def predict_outer (m : Model) (hb : ℕ) (mask : ℕ → ℕ) (norm linear_norm : ℚ) :
    List Feature → List Feature → ℚ → (Fin 8 → ℚ) → ℕ → (ℚ × (Fin 8 → ℚ) × ℕ)
  | _, [], linear_total, total, i => (linear_total, total, i)
  | prev, fa :: rest, linear_total, total, i =>
    let index_a := fa.index % 2 ^ hb
    let field_a := fa.index / 2 ^ hb
    let value_a := fa.value
    let lt := linear_total + value_a * m.linear_weights (index_a * 2) / linear_norm
    if field_a < m.min_a_field then
      predict_outer m hb mask norm linear_norm (prev ++ [fa]) rest lt total i
    else
      let p := predict_inner m hb mask index_a field_a value_a norm prev total i
      predict_outer m hb mask norm linear_norm (prev ++ [fa]) rest lt p.1 p.2

/-- ffm_model::predict: linear_norm = end - start, xmm_total starts with
bias_w in every lane (line 126), and the result is sum(xmm_total) +
linear_total (line 176). -/
def predict (m : Model) (hb : ℕ) (features : List Feature) (norm : ℚ)
    (mask : ℕ → ℕ) : ℚ :=
  let r := predict_outer m hb mask norm ((features.length : ℚ)) [] features 0
    (fun _ => m.bias_w) 0
  hsum r.2.1 + r.1

/-- One iteration of update's SIMD d-loop (lines 232-257): load both weight
vectors and both accumulator vectors, form the two direction gradients from
the loaded (pre-update) values, increment the accumulators by the squared
gradients, step the weights by eta * (rsqrt(new accumulator) * gradient),
then store in the source's order wa, wb, wga, wgb. -/
def update_block_step (eta lambda : ℚ) (rsqrtf : ℚ → ℚ) (kv : ℚ) (wa wb : ℕ)
    (w : ℕ → ℚ) (d : ℕ) : ℕ → ℚ :=
  let wga := wa + n_dim_aligned
  let wgb := wb + n_dim_aligned
  let xmm_wa := load8 w (wa + d)
  let xmm_wb := load8 w (wb + d)
  let xmm_wga := load8 w (wga + d)
  let xmm_wgb := load8 w (wgb + d)
  let xmm_ga := fun l => lambda * xmm_wa l + kv * xmm_wb l
  let xmm_gb := fun l => lambda * xmm_wb l + kv * xmm_wa l
  let xmm_wga2 := fun l => xmm_wga l + xmm_ga l * xmm_ga l
  let xmm_wgb2 := fun l => xmm_wgb l + xmm_gb l * xmm_gb l
  let xmm_wa2 := fun l => xmm_wa l - eta * (rsqrtf (xmm_wga2 l) * xmm_ga l)
  let xmm_wb2 := fun l => xmm_wb l - eta * (rsqrtf (xmm_wgb2 l) * xmm_gb l)
  store8 (store8 (store8 (store8 w (wa + d) xmm_wa2) (wb + d) xmm_wb2)
    (wga + d) xmm_wga2) (wgb + d) xmm_wgb2

/-- One mask-enabled pair's weight update: the d-loop folded over d_steps. -/
def update_pair (eta lambda : ℚ) (rsqrtf : ℚ → ℚ) (kv : ℚ) (wa wb : ℕ)
    (w : ℕ → ℚ) : ℕ → ℚ :=
  d_steps.foldl (update_block_step eta lambda rsqrtf kv wa wb) w

/-- The inner loop of update (lines 202-258): same enumeration, break and
mask gating as predict_inner, but threading the interaction weight buffer. -/
def update_inner (m : Model) (hb : ℕ) (mask : ℕ → ℕ) (rsqrtf : ℚ → ℚ)
    (index_a field_a : ℕ) (value_a norm kappa : ℚ) :
    List Feature → (ℕ → ℚ) → ℕ → ((ℕ → ℚ) × ℕ)
  | [], w, i => (w, i)
  | fb :: rest, w, i =>
    let index_b := fb.index % 2 ^ hb
    let field_b := fb.index / 2 ^ hb
    let value_b := fb.value
    if field_b > m.max_b_field then (w, i)
    else if test_mask_bit mask i = 0 then
      update_inner m hb mask rsqrtf index_a field_a value_a norm kappa rest w (i + 1)
    else
      let wa := index_a * index_stride + field_b * field_stride
      let wb := index_b * index_stride + field_a * field_stride
      update_inner m hb mask rsqrtf index_a field_a value_a norm kappa rest
        (update_pair m.eta m.lambda rsqrtf (kappa * value_a * value_b / norm) wa wb w) (i + 1)

/-- The outer loop of update (lines 188-259): the linear weight at
index_a*2 takes one AdaGrad step with gradient lambda * w + kappa *
value_a / linear_norm (lines 193-197, the weight written first, then the
accumulator), after which features with field_a below min_a_field skip the
inner loop. -/
def update_outer (m : Model) (hb : ℕ) (mask : ℕ → ℕ) (sqrtf rsqrtf : ℚ → ℚ)
    (norm linear_norm kappa : ℚ) :
    List Feature → List Feature → (ℕ → ℚ) → (ℕ → ℚ) → ℕ → ((ℕ → ℚ) × (ℕ → ℚ) × ℕ)
  | _, [], w, lw, i => (w, lw, i)
  | prev, fa :: rest, w, lw, i =>
    let index_a := fa.index % 2 ^ hb
    let field_a := fa.index / 2 ^ hb
    let value_a := fa.value
    let g := m.lambda * lw (index_a * 2) + kappa * value_a / linear_norm
    let wg := lw (index_a * 2 + 1) + g * g
    let lw2 := Function.update
      (Function.update lw (index_a * 2) (lw (index_a * 2) - m.eta * g / sqrtf wg))
      (index_a * 2 + 1) wg
    if field_a < m.min_a_field then
      update_outer m hb mask sqrtf rsqrtf norm linear_norm kappa (prev ++ [fa]) rest w lw2 i
    else
      let p := update_inner m hb mask rsqrtf index_a field_a value_a norm kappa prev w i
      update_outer m hb mask sqrtf rsqrtf norm linear_norm kappa (prev ++ [fa]) rest p.1 lw2 p.2

/-- ffm_model::update: run the two nested loops, then the bias step of
lines 262-263: bias_wg += kappa (kappa itself, not squared), bias_w -=
eta * kappa / sqrt(new bias_wg). -/
def update (m : Model) (hb : ℕ) (features : List Feature) (norm kappa : ℚ)
    (mask : ℕ → ℕ) (sqrtf rsqrtf : ℚ → ℚ) : Model :=
  let r := update_outer m hb mask sqrtf rsqrtf norm ((features.length : ℚ)) kappa
    [] features m.weights m.linear_weights 0
  let bias_wg2 := m.bias_wg + kappa
  { m with
    weights := r.1,
    linear_weights := r.2.1,
    bias_wg := bias_wg2,
    bias_w := m.bias_w - m.eta * kappa / sqrtf bias_wg2 }

/-- init_weights (lines 67-81): each of the n blocks gets n_dim generator
draws, then zeros up to n_dim_aligned, then ones (the AdaGrad accumulators)
up to 2*n_dim_aligned; the generator is modelled as the sequence of its
draws, gen applied to the number of draws made so far. -/
def init_weights (gen : ℕ → ℚ) (k : ℕ) : ℚ :=
  let d := k % (2 * n_dim_aligned)
  if d < n_dim then gen (k / (2 * n_dim_aligned) * n_dim + d)
  else if d < n_dim_aligned then 0
  else 1

/-- init_linear_weights (lines 84-91): alternating weight 0, accumulator 1. -/
def init_linear_weights (k : ℕ) : ℚ :=
  if k % 2 = 0 then 0 else 1

/-- The constructor ffm_model::ffm_model (lines 93-115): restriction bounds
from the restricted flag, bias pair (0, 1), and the two weight buffers. -/
def ffm_model_init (gen : ℕ → ℚ) (restricted : Bool) (eta lambda : ℚ) : Model :=
  { eta := eta, lambda := lambda,
    max_b_field := if restricted then 19 else n_fields,
    min_a_field := if restricted then 10 else 0,
    bias_w := 0, bias_wg := 1,
    weights := init_weights gen, linear_weights := init_linear_weights }

/-- One enumerated pair as seen by a pass: the decoded indices and fields
of the outer and inner feature, the value of the pair counter i when the
pair was visited, and the mask bit tested for it. -/
structure PairStep where
  index_a : ℕ
  field_a : ℕ
  index_b : ℕ
  field_b : ℕ
  ctr : ℕ
  bit : ℕ
deriving DecidableEq

/-- The enumeration trace of predict's inner loop: one PairStep per
completed iteration (the loop body runs under the same break condition as
predict_inner; the arithmetic on the accumulator cannot influence the
enumeration, so it is dropped). -/
def predict_inner_trace (m : Model) (hb : ℕ) (mask : ℕ → ℕ) (index_a field_a : ℕ) :
    List Feature → ℕ → (List PairStep × ℕ)
  | [], i => ([], i)
  | fb :: rest, i =>
    let index_b := fb.index % 2 ^ hb
    let field_b := fb.index / 2 ^ hb
    if field_b > m.max_b_field then ([], i)
    else
      let r := predict_inner_trace m hb mask index_a field_a rest (i + 1)
      (⟨index_a, field_a, index_b, field_b, i, test_mask_bit mask i⟩ :: r.1, r.2)

/-- The enumeration trace of predict's outer loop, with the final value of
the pair counter. -/
def predict_trace (m : Model) (hb : ℕ) (mask : ℕ → ℕ) :
    List Feature → List Feature → ℕ → (List PairStep × ℕ)
  | _, [], i => ([], i)
  | prev, fa :: rest, i =>
    let index_a := fa.index % 2 ^ hb
    let field_a := fa.index / 2 ^ hb
    if field_a < m.min_a_field then predict_trace m hb mask (prev ++ [fa]) rest i
    else
      let p := predict_inner_trace m hb mask index_a field_a prev i
      let q := predict_trace m hb mask (prev ++ [fa]) rest p.2
      (p.1 ++ q.1, q.2)

/-- The enumeration trace of update's inner loop (derived from
update_inner in the same way predict_inner_trace is derived from
predict_inner; the weight mutation cannot influence the enumeration). -/
def update_inner_trace (m : Model) (hb : ℕ) (mask : ℕ → ℕ) (index_a field_a : ℕ) :
    List Feature → ℕ → (List PairStep × ℕ)
  | [], i => ([], i)
  | fb :: rest, i =>
    let index_b := fb.index % 2 ^ hb
    let field_b := fb.index / 2 ^ hb
    if field_b > m.max_b_field then ([], i)
    else
      let r := update_inner_trace m hb mask index_a field_a rest (i + 1)
      (⟨index_a, field_a, index_b, field_b, i, test_mask_bit mask i⟩ :: r.1, r.2)

/-- The enumeration trace of update's outer loop (the linear weight step
touches only linear_weights, never the enumeration state). -/
def update_trace (m : Model) (hb : ℕ) (mask : ℕ → ℕ) :
    List Feature → List Feature → ℕ → (List PairStep × ℕ)
  | _, [], i => ([], i)
  | prev, fa :: rest, i =>
    let index_a := fa.index % 2 ^ hb
    let field_a := fa.index / 2 ^ hb
    if field_a < m.min_a_field then update_trace m hb mask (prev ++ [fa]) rest i
    else
      let p := update_inner_trace m hb mask index_a field_a prev i
      let q := update_trace m hb mask (prev ++ [fa]) rest p.2
      (p.1 ++ q.1, q.2)

/-- The linear term in the words of the spec, generalized over the
divisor: sum over the features of value * linear_weight[feature_id * 2] /
linear_norm. -/
def lin_sum (m : Model) (hb : ℕ) (linear_norm : ℚ) (fs : List Feature) : ℚ :=
  (fs.map (fun f => f.value * m.linear_weights ((f.index % 2 ^ hb) * 2) / linear_norm)).sum

/-- The linear term in the words of the spec (section 4.5 step 1): the
divisor is the example's raw feature count. -/
def spec_linear_term (m : Model) (hb : ℕ) (fs : List Feature) : ℚ :=
  lin_sum m hb ((fs.length : ℚ)) fs

/-- The buffer w is zero on every padding lane: addresses whose offset
inside their 2*n_dim_aligned block lies in [n_dim, n_dim_aligned). -/
def pad_zero (w : ℕ → ℚ) : Prop :=
  ∀ k, n_dim ≤ k % (2 * n_dim_aligned) → k % (2 * n_dim_aligned) < n_dim_aligned → w k = 0

/-- Every AdaGrad accumulator of the model state is positive: the second
half of every interaction block, the odd linear slots, and the bias
accumulator. -/
def acc_pos (m : Model) : Prop :=
  (∀ k, n_dim_aligned ≤ k % (2 * n_dim_aligned) → 0 < m.weights k) ∧
  (∀ j, 0 < m.linear_weights (2 * j + 1)) ∧ 0 < m.bias_wg

theorem store8_in (w : ℕ → ℚ) (base : ℕ) (v : Fin 8 → ℚ) (k : ℕ)
    (h1 : base ≤ k) (h2 : k < base + 8) : store8 w base v k = v ⟨k - base, by omega⟩ := by
  unfold store8
  rw [dif_pos ⟨h1, h2⟩]

theorem store8_out (w : ℕ → ℚ) (base : ℕ) (v : Fin 8 → ℚ) (k : ℕ)
    (h : k < base ∨ base + 8 ≤ k) : store8 w base v k = w k := by
  unfold store8
  rw [dif_neg (by omega)]

theorem d_steps_eq : d_steps = [0, 8] := by decide

theorem test_mask_bit_of_zero (mask : ℕ → ℕ) (h : ∀ j, mask j = 0) (i : ℕ) :
    test_mask_bit mask i = 0 := by
  unfold test_mask_bit
  rw [h]
  simp

theorem predict_inner_ctr (m : Model) (hb : ℕ) (mask : ℕ → ℕ) (ia fa : ℕ)
    (va norm : ℚ) (fs : List Feature) : ∀ (total : Fin 8 → ℚ) (i : ℕ),
    (predict_inner m hb mask ia fa va norm fs total i).2 =
      (predict_inner_trace m hb mask ia fa fs i).2 := by
  induction fs with
  | nil => intro total i; rfl
  | cons fb rest ih =>
    intro total i
    simp only [predict_inner, predict_inner_trace]
    by_cases h1 : fb.index / 2 ^ hb > m.max_b_field
    · rw [if_pos h1, if_pos h1]
    · rw [if_neg h1, if_neg h1]
      by_cases h2 : test_mask_bit mask i = 0
      · rw [if_pos h2]; exact ih _ _
      · rw [if_neg h2]; exact ih _ _

theorem update_inner_ctr (m : Model) (hb : ℕ) (mask : ℕ → ℕ) (rsqrtf : ℚ → ℚ)
    (ia fa : ℕ) (va norm kappa : ℚ) (fs : List Feature) : ∀ (w : ℕ → ℚ) (i : ℕ),
    (update_inner m hb mask rsqrtf ia fa va norm kappa fs w i).2 =
      (update_inner_trace m hb mask ia fa fs i).2 := by
  induction fs with
  | nil => intro w i; rfl
  | cons fb rest ih =>
    intro w i
    simp only [update_inner, update_inner_trace]
    by_cases h1 : fb.index / 2 ^ hb > m.max_b_field
    · rw [if_pos h1, if_pos h1]
    · rw [if_neg h1, if_neg h1]
      by_cases h2 : test_mask_bit mask i = 0
      · rw [if_pos h2]; exact ih _ _
      · rw [if_neg h2]; exact ih _ _

theorem inner_trace_eq (m : Model) (hb : ℕ) (mask : ℕ → ℕ) (ia fa : ℕ)
    (fs : List Feature) : ∀ i : ℕ,
    predict_inner_trace m hb mask ia fa fs i = update_inner_trace m hb mask ia fa fs i := by
  induction fs with
  | nil => intro i; rfl
  | cons fb rest ih =>
    intro i
    simp only [predict_inner_trace, update_inner_trace]
    rw [ih]

theorem trace_eq (m : Model) (hb : ℕ) (mask : ℕ → ℕ) (fs : List Feature) :
    ∀ (prev : List Feature) (i : ℕ),
    predict_trace m hb mask prev fs i = update_trace m hb mask prev fs i := by
  induction fs with
  | nil => intro prev i; rfl
  | cons fa rest ih =>
    intro prev i
    simp only [predict_trace, update_trace]
    rw [inner_trace_eq, ih]
    by_cases h1 : fa.index / 2 ^ hb < m.min_a_field
    · rw [if_pos h1, if_pos h1]
    · rw [if_neg h1, if_neg h1]
      rw [ih]

theorem predict_outer_ctr (m : Model) (hb : ℕ) (mask : ℕ → ℕ) (norm ln : ℚ)
    (fs : List Feature) : ∀ (prev : List Feature) (lt : ℚ) (total : Fin 8 → ℚ) (i : ℕ),
    (predict_outer m hb mask norm ln prev fs lt total i).2.2 =
      (predict_trace m hb mask prev fs i).2 := by
  induction fs with
  | nil => intro prev lt total i; rfl
  | cons fa rest ih =>
    intro prev lt total i
    simp only [predict_outer, predict_trace]
    by_cases h1 : fa.index / 2 ^ hb < m.min_a_field
    · rw [if_pos h1, if_pos h1]; exact ih _ _ _ _
    · rw [if_neg h1, if_neg h1]
      rw [ih, predict_inner_ctr]

theorem update_outer_ctr (m : Model) (hb : ℕ) (mask : ℕ → ℕ) (sqrtf rsqrtf : ℚ → ℚ)
    (norm ln kappa : ℚ) (fs : List Feature) :
    ∀ (prev : List Feature) (w lw : ℕ → ℚ) (i : ℕ),
    (update_outer m hb mask sqrtf rsqrtf norm ln kappa prev fs w lw i).2.2 =
      (update_trace m hb mask prev fs i).2 := by
  induction fs with
  | nil => intro prev w lw i; rfl
  | cons fa rest ih =>
    intro prev w lw i
    simp only [update_outer, update_trace]
    by_cases h1 : fa.index / 2 ^ hb < m.min_a_field
    · rw [if_pos h1, if_pos h1]; exact ih _ _ _ _
    · rw [if_neg h1, if_neg h1]
      rw [ih, update_inner_ctr]

theorem inner_trace_bits (m : Model) (hb : ℕ) (mask : ℕ → ℕ) (ia fa : ℕ)
    (fs : List Feature) : ∀ i : ℕ,
    ∀ e ∈ (predict_inner_trace m hb mask ia fa fs i).1,
      e.bit = test_mask_bit mask e.ctr := by
  induction fs with
  | nil => intro i e he; exact absurd he (List.not_mem_nil e)
  | cons fb rest ih =>
    intro i e he
    simp only [predict_inner_trace] at he
    by_cases h1 : fb.index / 2 ^ hb > m.max_b_field
    · rw [if_pos h1] at he
      exact absurd he (List.not_mem_nil e)
    · rw [if_neg h1] at he
      rcases List.mem_cons.mp he with h | h
      · rw [h]
      · exact ih (i + 1) e h

theorem trace_bits (m : Model) (hb : ℕ) (mask : ℕ → ℕ) (fs : List Feature) :
    ∀ (prev : List Feature) (i : ℕ),
    ∀ e ∈ (predict_trace m hb mask prev fs i).1, e.bit = test_mask_bit mask e.ctr := by
  induction fs with
  | nil => intro prev i e he; exact absurd he (List.not_mem_nil e)
  | cons fa rest ih =>
    intro prev i e he
    simp only [predict_trace] at he
    by_cases h1 : fa.index / 2 ^ hb < m.min_a_field
    · rw [if_pos h1] at he
      exact ih _ _ e he
    · rw [if_neg h1] at he
      rcases List.mem_append.mp he with h | h
      · exact inner_trace_bits m hb mask _ _ prev i e h
      · exact ih _ _ e h

/-- C2: predict and update enumerate exactly the same pairs in the same
order and advance the pair counter i identically (their traces coincide,
and each pass's final counter is the trace's final counter); every
enumerated pair carries the mask bit tested at its own counter value, so
both passes gate each pair by the same bit, and by predict_inner and
update_inner a pair's body runs exactly when that bit is 1. -/
theorem predict_update_lockstep (m : Model) (hb : ℕ) (mask : ℕ → ℕ)
    (fs : List Feature) (norm kappa : ℚ) (sqrtf rsqrtf : ℚ → ℚ) :
    predict_trace m hb mask [] fs 0 = update_trace m hb mask [] fs 0 ∧
    (∀ e ∈ (predict_trace m hb mask [] fs 0).1, e.bit = test_mask_bit mask e.ctr) ∧
    (predict_outer m hb mask norm ((fs.length : ℚ)) [] fs 0 (fun _ => m.bias_w) 0).2.2 =
      (predict_trace m hb mask [] fs 0).2 ∧
    (update_outer m hb mask sqrtf rsqrtf norm ((fs.length : ℚ)) kappa [] fs
      m.weights m.linear_weights 0).2.2 = (update_trace m hb mask [] fs 0).2 := by
  refine ⟨trace_eq m hb mask fs [] 0, trace_bits m hb mask fs [] 0, ?_, ?_⟩
  · exact predict_outer_ctr m hb mask norm _ fs [] 0 _ 0
  · rw [update_outer_ctr]

/-- C7: update ends by adding kappa itself (not kappa squared) to the bias
AdaGrad accumulator and then subtracting eta * kappa / sqrt(new
accumulator) from the bias weight. -/
theorem update_bias_step (m : Model) (hb : ℕ) (fs : List Feature) (norm kappa : ℚ)
    (mask : ℕ → ℕ) (sqrtf rsqrtf : ℚ → ℚ) :
    (update m hb fs norm kappa mask sqrtf rsqrtf).bias_wg = m.bias_wg + kappa ∧
    (update m hb fs norm kappa mask sqrtf rsqrtf).bias_w =
      m.bias_w - m.eta * kappa / sqrtf (m.bias_wg + kappa) := by
  constructor <;> rfl

theorem predict_outer_linear (m : Model) (hb : ℕ) (mask : ℕ → ℕ) (norm ln : ℚ)
    (fs : List Feature) : ∀ (prev : List Feature) (lt : ℚ) (total : Fin 8 → ℚ) (i : ℕ),
    (predict_outer m hb mask norm ln prev fs lt total i).1 = lt + lin_sum m hb ln fs := by
  induction fs with
  | nil => intro prev lt total i; simp [predict_outer, lin_sum]
  | cons fa rest ih =>
    intro prev lt total i
    simp only [predict_outer, lin_sum, List.map_cons, List.sum_cons]
    by_cases h1 : fa.index / 2 ^ hb < m.min_a_field
    · rw [if_pos h1, ih]
      unfold lin_sum
      ring
    · rw [if_neg h1, ih]
      unfold lin_sum
      ring

theorem predict_inner_total_of_zero (m : Model) (hb : ℕ) (mask : ℕ → ℕ)
    (ia fa : ℕ) (va norm : ℚ) (hmask : ∀ j, mask j = 0) (fs : List Feature) :
    ∀ (total : Fin 8 → ℚ) (i : ℕ),
    (predict_inner m hb mask ia fa va norm fs total i).1 = total := by
  induction fs with
  | nil => intro total i; rfl
  | cons fb rest ih =>
    intro total i
    simp only [predict_inner]
    by_cases h1 : fb.index / 2 ^ hb > m.max_b_field
    · rw [if_pos h1]
    · rw [if_neg h1, if_pos (test_mask_bit_of_zero mask hmask i)]
      exact ih _ _

theorem predict_outer_total_of_zero (m : Model) (hb : ℕ) (mask : ℕ → ℕ)
    (norm ln : ℚ) (hmask : ∀ j, mask j = 0) (fs : List Feature) :
    ∀ (prev : List Feature) (lt : ℚ) (total : Fin 8 → ℚ) (i : ℕ),
    (predict_outer m hb mask norm ln prev fs lt total i).2.1 = total := by
  induction fs with
  | nil => intro prev lt total i; rfl
  | cons fa rest ih =>
    intro prev lt total i
    simp only [predict_outer]
    by_cases h1 : fa.index / 2 ^ hb < m.min_a_field
    · rw [if_pos h1]; exact ih _ _ _ _
    · rw [if_neg h1, ih]
      exact predict_inner_total_of_zero m hb mask _ _ _ norm hmask prev total i

theorem hsum_const (b : ℚ) : hsum (fun _ => b) = 8 * b := by
  unfold hsum
  ring

/-- A concrete model state used by witnesses and counterexamples: bias
weight 1, all stored weights 0, unrestricted bounds. -/
def m1 : Model :=
  { eta := 1, lambda := 0, max_b_field := n_fields, min_a_field := 0,
    bias_w := 1, bias_wg := 1, weights := fun _ => 0, linear_weights := fun _ => 0 }

/-- C1 counterexample: on the one-feature example [(0, 1)] with all-zero
mask, norm 1, bias weight 1 and all linear weights 0, predict returns 8
(the bias sits in all 8 SIMD lanes of xmm_total and sum() adds every
lane), not bias + linear term = 1. -/
theorem predict_bias_once_cex :
    predict m1 1 [⟨0, 1⟩] 1 (fun _ => 0) ≠ m1.bias_w + spec_linear_term m1 1 [⟨0, 1⟩] := by
  simp only [predict, spec_linear_term]
  rw [predict_outer_linear, predict_outer_total_of_zero m1 1 _ 1 _ (fun _ => rfl),
    hsum_const, zero_add]
  norm_num [lin_sum, m1]

/-- C1 (amended): for every feature list, norm, and all-zero dropout mask,
predict returns exactly 8 * bias_w plus the linear term (sum over features
of value * linear_weight / feature count); the bias weight contributes
once per SIMD lane, so 8 times, not once. -/
theorem predict_zero_mask (m : Model) (hb : ℕ) (fs : List Feature) (norm : ℚ)
    (mask : ℕ → ℕ) (hfs : fs ≠ []) (hmask : ∀ j, mask j = 0) :
    predict m hb fs norm mask = 8 * m.bias_w + spec_linear_term m hb fs := by
  simp only [predict, spec_linear_term]
  rw [predict_outer_linear, predict_outer_total_of_zero m hb mask norm _ hmask,
    hsum_const, zero_add]

theorem predict_zero_mask_witness :
    predict m1 1 [⟨0, 1⟩] 1 (fun _ => 0) = 8 * m1.bias_w + spec_linear_term m1 1 [⟨0, 1⟩] :=
  predict_zero_mask m1 1 [⟨0, 1⟩] 1 (fun _ => 0) (List.cons_ne_nil _ _) (fun _ => rfl)

/-- C8: predict's score decomposes as the interaction-and-bias vector sum
plus exactly the spec linear term: every feature, those with field below
min_a_field included, contributes value * linear_weight[index mod 2^hb]
divided by the raw feature count. -/
theorem predict_linear_part (m : Model) (hb : ℕ) (fs : List Feature) (norm : ℚ)
    (mask : ℕ → ℕ) (hfs : fs ≠ []) :
    predict m hb fs norm mask =
      hsum (predict_outer m hb mask norm ((fs.length : ℚ)) [] fs 0
        (fun _ => m.bias_w) 0).2.1 + spec_linear_term m hb fs := by
  simp only [predict, spec_linear_term]
  rw [predict_outer_linear, zero_add]

theorem predict_linear_part_witness :
    predict m1 1 [⟨0, 1⟩] 1 (fun _ => 0) =
      hsum (predict_outer m1 1 (fun _ => 0) 1 ((([⟨0, 1⟩] : List Feature).length : ℚ))
        [] [⟨0, 1⟩] 0 (fun _ => m1.bias_w) 0).2.1 + spec_linear_term m1 1 [⟨0, 1⟩] :=
  predict_linear_part m1 1 [⟨0, 1⟩] 1 (fun _ => 0) (List.cons_ne_nil _ _)

theorem predict_trace_of_low (m : Model) (hb : ℕ) (mask : ℕ → ℕ) (fs : List Feature)
    (hf : ∀ f ∈ fs, f.index / 2 ^ hb < m.min_a_field) :
    ∀ (prev : List Feature) (i : ℕ), predict_trace m hb mask prev fs i = ([], i) := by
  induction fs with
  | nil => intro prev i; rfl
  | cons fa rest ih =>
    intro prev i
    simp only [predict_trace]
    rw [if_pos (hf fa (List.mem_cons_self fa rest))]
    exact ih (fun f hm => hf f (List.mem_cons_of_mem fa hm)) _ _

theorem predict_outer_total_of_low (m : Model) (hb : ℕ) (mask : ℕ → ℕ)
    (norm ln : ℚ) (fs : List Feature)
    (hf : ∀ f ∈ fs, f.index / 2 ^ hb < m.min_a_field) :
    ∀ (prev : List Feature) (lt : ℚ) (total : Fin 8 → ℚ) (i : ℕ),
    (predict_outer m hb mask norm ln prev fs lt total i).2.1 = total := by
  induction fs with
  | nil => intro prev lt total i; rfl
  | cons fa rest ih =>
    intro prev lt total i
    simp only [predict_outer]
    rw [if_pos (hf fa (List.mem_cons_self fa rest))]
    exact ih (fun f hm => hf f (List.mem_cons_of_mem fa hm)) _ _ _ _

/-- C6: in restricted mode (min_a_field = 10, max_b_field = 19), if every
feature's field is below 10 then no pair is enumerated (the trace is empty
and the counter stays 0) and predict is 8 * bias plus the linear term for
every mask: the interaction contribution is zero and no mask bit is
consulted (the value does not depend on the mask). -/
theorem predict_restricted_low (m : Model) (hb : ℕ) (fs : List Feature) (norm : ℚ)
    (mask : ℕ → ℕ) (hmin : m.min_a_field = 10) (hmax : m.max_b_field = 19)
    (hf : ∀ f ∈ fs, f.index / 2 ^ hb < 10) :
    predict_trace m hb mask [] fs 0 = ([], 0) ∧
    predict m hb fs norm mask = 8 * m.bias_w + spec_linear_term m hb fs := by
  have hf2 : ∀ f ∈ fs, f.index / 2 ^ hb < m.min_a_field := by
    rw [hmin]; exact hf
  constructor
  · exact predict_trace_of_low m hb mask fs hf2 [] 0
  · simp only [predict, spec_linear_term]
    rw [predict_outer_linear, predict_outer_total_of_low m hb mask norm _ fs hf2,
      hsum_const, zero_add]

/-- The restricted-mode model built by the constructor from the all-zero
generator, used as witness input. -/
def m2 : Model := ffm_model_init (fun _ => 0) true 1 0

theorem predict_restricted_low_witness :
    predict_trace m2 1 (fun _ => 1) [] [⟨5, 1⟩] 0 = ([], 0) ∧
    predict m2 1 [⟨5, 1⟩] 1 (fun _ => 1) = 8 * m2.bias_w + spec_linear_term m2 1 [⟨5, 1⟩] :=
  predict_restricted_low m2 1 [⟨5, 1⟩] 1 (fun _ => 1) rfl rfl (by decide)

theorem update_block_step_zero (eta : ℚ) (rsqrtf : ℚ → ℚ) (wa wb : ℕ)
    (w : ℕ → ℚ) (d : ℕ) : update_block_step eta 0 rsqrtf 0 wa wb w d = w := by
  funext k
  unfold update_block_step store8 load8
  simp only [zero_mul, mul_zero, zero_add, add_zero, sub_zero]
  split_ifs <;> first | rfl | (congr 1; omega)

theorem update_pair_zero (eta : ℚ) (rsqrtf : ℚ → ℚ) (wa wb : ℕ) (w : ℕ → ℚ) :
    update_pair eta 0 rsqrtf 0 wa wb w = w := by
  unfold update_pair
  rw [d_steps_eq]
  simp only [List.foldl_cons, List.foldl_nil, update_block_step_zero]

theorem update_inner_zero (m : Model) (hb : ℕ) (mask : ℕ → ℕ) (rsqrtf : ℚ → ℚ)
    (ia fa : ℕ) (va norm : ℚ) (hlam : m.lambda = 0) (fs : List Feature) :
    ∀ (w : ℕ → ℚ) (i : ℕ),
    (update_inner m hb mask rsqrtf ia fa va norm 0 fs w i).1 = w := by
  induction fs with
  | nil => intro w i; rfl
  | cons fb rest ih =>
    intro w i
    simp only [update_inner]
    by_cases h1 : fb.index / 2 ^ hb > m.max_b_field
    · rw [if_pos h1]
    · rw [if_neg h1]
      by_cases h2 : test_mask_bit mask i = 0
      · rw [if_pos h2]; exact ih _ _
      · rw [if_neg h2, hlam]
        rw [show (0 : ℚ) * va * fb.value / norm = 0 by ring]
        rw [update_pair_zero]
        exact ih _ _

theorem update_outer_zero (m : Model) (hb : ℕ) (mask : ℕ → ℕ) (sqrtf rsqrtf : ℚ → ℚ)
    (norm ln : ℚ) (hlam : m.lambda = 0) (fs : List Feature) :
    ∀ (prev : List Feature) (w lw : ℕ → ℚ) (i : ℕ),
    (update_outer m hb mask sqrtf rsqrtf norm ln 0 prev fs w lw i).1 = w ∧
    (update_outer m hb mask sqrtf rsqrtf norm ln 0 prev fs w lw i).2.1 = lw := by
  induction fs with
  | nil => intro prev w lw i; exact ⟨rfl, rfl⟩
  | cons fa rest ih =>
    intro prev w lw i
    simp only [update_outer, hlam]
    rw [show (0 : ℚ) * lw (fa.index % 2 ^ hb * 2) + 0 * fa.value / ln = 0 by ring]
    rw [show lw (fa.index % 2 ^ hb * 2 + 1) + 0 * 0 = lw (fa.index % 2 ^ hb * 2 + 1) by ring]
    rw [show lw (fa.index % 2 ^ hb * 2) - m.eta * 0 / sqrtf (lw (fa.index % 2 ^ hb * 2 + 1)) =
      lw (fa.index % 2 ^ hb * 2) by ring]
    rw [Function.update_eq_self, Function.update_eq_self]
    by_cases h1 : fa.index / 2 ^ hb < m.min_a_field
    · rw [if_pos h1]; exact ih _ _ _ _
    · rw [if_neg h1]
      rw [update_inner_zero m hb mask rsqrtf _ _ _ norm hlam]
      exact ih _ _ _ _

/-- C5: with kappa = 0 and lambda = 0, update is the identity on the whole
model state: every latent weight, every linear weight, every AdaGrad
accumulator and the bias pair are unchanged (stated for states with
positive accumulators, where the real sqrt is defined). -/
theorem update_zero_gradient (m : Model) (hb : ℕ) (fs : List Feature) (norm : ℚ)
    (mask : ℕ → ℕ) (sqrtf rsqrtf : ℚ → ℚ) (hlam : m.lambda = 0) (hacc : acc_pos m) :
    update m hb fs norm 0 mask sqrtf rsqrtf = m := by
  simp only [update]
  have h := update_outer_zero m hb mask sqrtf rsqrtf norm ((fs.length : ℚ)) hlam fs []
    m.weights m.linear_weights 0
  rw [h.1, h.2]
  cases m with
  | mk eta lambda maxb minb bw bwg w lw =>
    simp only [Model.mk.injEq, add_zero, mul_zero, zero_div, sub_zero, and_self, and_true, true_and]

/-- Concrete witness state with all weights and accumulators 1 and
lambda 0. -/
def m3 : Model :=
  { eta := 1, lambda := 0, max_b_field := n_fields, min_a_field := 0,
    bias_w := 0, bias_wg := 1, weights := fun _ => 1, linear_weights := fun _ => 1 }

theorem update_zero_gradient_witness :
    update m3 1 [⟨0, 1⟩] 1 0 (fun _ => 1) id id = m3 :=
  update_zero_gradient m3 1 [⟨0, 1⟩] 1 (fun _ => 1) id id rfl
    ⟨fun _ _ => one_pos, fun _ => one_pos, one_pos⟩

/-- C9: for a two-feature example in unrestricted mode (min_a_field = 0,
max_b_field = n_fields), with both fields valid and the pair's mask bit
(bit 0) set, swapping the two features leaves predict unchanged: the same
two blocks are consulted with their roles exchanged and the same scalar
value_a * value_b / norm weighs the same lane products. -/
theorem predict_two_swap (m : Model) (hb : ℕ) (norm : ℚ) (mask : ℕ → ℕ)
    (f0 f1 : Feature) (hmin : m.min_a_field = 0) (hmax : m.max_b_field = n_fields)
    (h0 : f0.index / 2 ^ hb < n_fields) (h1 : f1.index / 2 ^ hb < n_fields)
    (hbit : test_mask_bit mask 0 = 1) :
    predict m hb [f0, f1] norm mask = predict m hb [f1, f0] norm mask := by
  have hb0 : ¬ f0.index / 2 ^ hb > m.max_b_field := by
    rw [hmax]; exact Nat.not_lt.mpr (le_of_lt h0)
  have hb1 : ¬ f1.index / 2 ^ hb > m.max_b_field := by
    rw [hmax]; exact Nat.not_lt.mpr (le_of_lt h1)
  have hm0 : ¬ f0.index / 2 ^ hb < m.min_a_field := by
    rw [hmin]; exact Nat.not_lt_zero _
  have hm1 : ¬ f1.index / 2 ^ hb < m.min_a_field := by
    rw [hmin]; exact Nat.not_lt_zero _
  have hmask0 : ¬ test_mask_bit mask 0 = 0 := by rw [hbit]; omega
  simp only [predict, predict_outer, predict_inner, predict_pair, d_steps_eq,
    List.foldl_cons, List.foldl_nil, List.length_cons, List.length_nil,
    List.nil_append, List.cons_append, hb0, hb1, hm0, hm1, hmask0, if_false,
    if_neg, hsum, load8, ite_false]
  push_cast
  ring

theorem predict_two_swap_witness :
    predict m1 1 [⟨0, 1⟩, ⟨2, 2⟩] 1 (fun _ => 1) =
      predict m1 1 [⟨2, 2⟩, ⟨0, 1⟩] 1 (fun _ => 1) :=
  predict_two_swap m1 1 1 (fun _ => 1) ⟨0, 1⟩ ⟨2, 2⟩ rfl rfl (by decide) (by decide) rfl

theorem n_dim_eq : n_dim = 14 := rfl

theorem n_dim_aligned_eq : n_dim_aligned = 16 := rfl

theorem index_stride_eq : index_stride = 960 := rfl

theorem field_stride_eq : field_stride = 32 := rfl

theorem update_two_weights (m : Model) (hb : ℕ) (mask : ℕ → ℕ) (sqrtf rsqrtf : ℚ → ℚ)
    (norm kappa : ℚ) (fb fa : Feature)
    (hfa : ¬ fa.index / 2 ^ hb < m.min_a_field)
    (hfb : ¬ fb.index / 2 ^ hb > m.max_b_field)
    (hbit : ¬ test_mask_bit mask 0 = 0) :
    (update m hb [fb, fa] norm kappa mask sqrtf rsqrtf).weights =
      update_pair m.eta m.lambda rsqrtf (kappa * fa.value * fb.value / norm)
        (fa.index % 2 ^ hb * index_stride + fb.index / 2 ^ hb * field_stride)
        (fb.index % 2 ^ hb * index_stride + fa.index / 2 ^ hb * field_stride)
        m.weights := by
  simp only [update, update_outer, update_inner, List.nil_append, List.cons_append,
    hfa, hfb, hbit, if_false, ite_false]
  by_cases h1 : fb.index / 2 ^ hb < m.min_a_field
  · rw [if_pos h1]
  · rw [if_neg h1]

theorem ubs_read_out (eta lam : ℚ) (rsqrtf : ℚ → ℚ) (kv : ℚ) (wa wb : ℕ)
    (w : ℕ → ℚ) (d k : ℕ)
    (h1 : k < wa + d ∨ wa + d + 8 ≤ k) (h2 : k < wb + d ∨ wb + d + 8 ≤ k)
    (h3 : k < wa + 16 + d ∨ wa + 16 + d + 8 ≤ k)
    (h4 : k < wb + 16 + d ∨ wb + 16 + d + 8 ≤ k) :
    update_block_step eta lam rsqrtf kv wa wb w d k = w k := by
  simp only [update_block_step, store8, load8, n_dim_aligned_eq]
  split_ifs <;> first | rfl | (exfalso; omega)

theorem ubs_read_wa (eta lam : ℚ) (rsqrtf : ℚ → ℚ) (kv : ℚ) (wa wb : ℕ)
    (w : ℕ → ℚ) (d l : ℕ) (ga : ℚ)
    (hga : ga = lam * w (wa + d + l) + kv * w (wb + d + l))
    (hl : l < 8) (hd : d = 0 ∨ d = 8)
    (h32a : wa % 32 = 0) (h32b : wb % 32 = 0) (hne : wa ≠ wb) :
    update_block_step eta lam rsqrtf kv wa wb w d (wa + d + l) =
      w (wa + d + l) - eta * (rsqrtf (w (wa + 16 + d + l) + ga * ga) * ga) := by
  have hsep : wa + 32 ≤ wb ∨ wb + 32 ≤ wa := by omega
  have hidx : wa + d + l - (wa + d) = l := by omega
  simp only [update_block_step, store8, load8, n_dim_aligned_eq]
  rw [hga]
  split_ifs <;> first | (exfalso; omega) | simp only [hidx]

theorem ubs_read_wb (eta lam : ℚ) (rsqrtf : ℚ → ℚ) (kv : ℚ) (wa wb : ℕ)
    (w : ℕ → ℚ) (d l : ℕ) (gb : ℚ)
    (hgb : gb = lam * w (wb + d + l) + kv * w (wa + d + l))
    (hl : l < 8) (hd : d = 0 ∨ d = 8)
    (h32a : wa % 32 = 0) (h32b : wb % 32 = 0) (hne : wa ≠ wb) :
    update_block_step eta lam rsqrtf kv wa wb w d (wb + d + l) =
      w (wb + d + l) - eta * (rsqrtf (w (wb + 16 + d + l) + gb * gb) * gb) := by
  have hsep : wa + 32 ≤ wb ∨ wb + 32 ≤ wa := by omega
  have hidx : wb + d + l - (wb + d) = l := by omega
  simp only [update_block_step, store8, load8, n_dim_aligned_eq]
  rw [hgb]
  split_ifs <;> first | (exfalso; omega) | simp only [hidx]

theorem ubs_read_wga (eta lam : ℚ) (rsqrtf : ℚ → ℚ) (kv : ℚ) (wa wb : ℕ)
    (w : ℕ → ℚ) (d l : ℕ) (ga : ℚ)
    (hga : ga = lam * w (wa + d + l) + kv * w (wb + d + l))
    (hl : l < 8) (hd : d = 0 ∨ d = 8)
    (h32a : wa % 32 = 0) (h32b : wb % 32 = 0) (hne : wa ≠ wb) :
    update_block_step eta lam rsqrtf kv wa wb w d (wa + 16 + d + l) =
      w (wa + 16 + d + l) + ga * ga := by
  have hsep : wa + 32 ≤ wb ∨ wb + 32 ≤ wa := by omega
  have hidx : wa + 16 + d + l - (wa + 16 + d) = l := by omega
  simp only [update_block_step, store8, load8, n_dim_aligned_eq]
  rw [hga]
  split_ifs <;> first | (exfalso; omega) | simp only [hidx]

theorem ubs_read_wgb (eta lam : ℚ) (rsqrtf : ℚ → ℚ) (kv : ℚ) (wa wb : ℕ)
    (w : ℕ → ℚ) (d l : ℕ) (gb : ℚ)
    (hgb : gb = lam * w (wb + d + l) + kv * w (wa + d + l))
    (hl : l < 8) :
    update_block_step eta lam rsqrtf kv wa wb w d (wb + 16 + d + l) =
      w (wb + 16 + d + l) + gb * gb := by
  have hidx : wb + 16 + d + l - (wb + 16 + d) = l := by omega
  simp only [update_block_step, store8, load8, n_dim_aligned_eq]
  rw [hgb]
  split_ifs <;> first | (exfalso; omega) | simp only [hidx]

theorem ubs_read_alias_w (eta lam : ℚ) (rsqrtf : ℚ → ℚ) (kv : ℚ) (wa : ℕ)
    (w : ℕ → ℚ) (d l : ℕ) (g : ℚ)
    (hg : g = lam * w (wa + d + l) + kv * w (wa + d + l)) (hl : l < 8) :
    update_block_step eta lam rsqrtf kv wa wa w d (wa + d + l) =
      w (wa + d + l) - eta * (rsqrtf (w (wa + 16 + d + l) + g * g) * g) := by
  have hidx : wa + d + l - (wa + d) = l := by omega
  simp only [update_block_step, store8, load8, n_dim_aligned_eq]
  rw [hg]
  split_ifs <;> first | (exfalso; omega) | simp only [hidx]

theorem ubs_read_alias_acc (eta lam : ℚ) (rsqrtf : ℚ → ℚ) (kv : ℚ) (wa : ℕ)
    (w : ℕ → ℚ) (d l : ℕ) (g : ℚ)
    (hg : g = lam * w (wa + d + l) + kv * w (wa + d + l)) (hl : l < 8) :
    update_block_step eta lam rsqrtf kv wa wa w d (wa + 16 + d + l) =
      w (wa + 16 + d + l) + g * g := by
  have hidx : wa + 16 + d + l - (wa + 16 + d) = l := by omega
  simp only [update_block_step, store8, load8, n_dim_aligned_eq]
  rw [hg]
  split_ifs <;> first | (exfalso; omega) | simp only [hidx]

theorem update_pair_read_wa (eta lam : ℚ) (rsqrtf : ℚ → ℚ) (kv : ℚ) (wa wb : ℕ)
    (w : ℕ → ℚ) (d : ℕ) (ga : ℚ)
    (hga : ga = lam * w (wa + d) + kv * w (wb + d))
    (hd : d < 14) (h32a : wa % 32 = 0) (h32b : wb % 32 = 0) (hne : wa ≠ wb) :
    update_pair eta lam rsqrtf kv wa wb w (wa + d) =
      w (wa + d) - eta * (rsqrtf (w (wa + 16 + d) + ga * ga) * ga) := by
  have hsep : wa + 32 ≤ wb ∨ wb + 32 ≤ wa := by omega
  unfold update_pair
  rw [d_steps_eq]
  simp only [List.foldl_cons, List.foldl_nil]
  rcases Nat.lt_or_ge d 8 with h8 | h8
  · rw [ubs_read_out eta lam rsqrtf kv wa wb _ 8 (wa + d)
      (by omega) (by omega) (by omega) (by omega)]
    exact ubs_read_wa eta lam rsqrtf kv wa wb w 0 d ga hga h8 (Or.inl rfl) h32a h32b hne
  · have s1 : update_block_step eta lam rsqrtf kv wa wb w 0 (wa + 8 + (d - 8)) =
        w (wa + 8 + (d - 8)) :=
      ubs_read_out eta lam rsqrtf kv wa wb w 0 (wa + 8 + (d - 8))
        (by omega) (by omega) (by omega) (by omega)
    have s2 : update_block_step eta lam rsqrtf kv wa wb w 0 (wb + 8 + (d - 8)) =
        w (wb + 8 + (d - 8)) :=
      ubs_read_out eta lam rsqrtf kv wa wb w 0 (wb + 8 + (d - 8))
        (by omega) (by omega) (by omega) (by omega)
    have s3 : update_block_step eta lam rsqrtf kv wa wb w 0 (wa + 16 + 8 + (d - 8)) =
        w (wa + 16 + 8 + (d - 8)) :=
      ubs_read_out eta lam rsqrtf kv wa wb w 0 (wa + 16 + 8 + (d - 8))
        (by omega) (by omega) (by omega) (by omega)
    rw [show wa + d = wa + 8 + (d - 8) from by omega,
      show wa + 16 + d = wa + 16 + 8 + (d - 8) from by omega]
    rw [ubs_read_wa eta lam rsqrtf kv wa wb _ 8 (d - 8) ga
      (by rw [s1, s2, show wa + 8 + (d - 8) = wa + d from by omega,
        show wb + 8 + (d - 8) = wb + d from by omega]; exact hga)
      (by omega) (Or.inr rfl) h32a h32b hne, s1, s3]

theorem update_pair_read_wb (eta lam : ℚ) (rsqrtf : ℚ → ℚ) (kv : ℚ) (wa wb : ℕ)
    (w : ℕ → ℚ) (d : ℕ) (gb : ℚ)
    (hgb : gb = lam * w (wb + d) + kv * w (wa + d))
    (hd : d < 14) (h32a : wa % 32 = 0) (h32b : wb % 32 = 0) (hne : wa ≠ wb) :
    update_pair eta lam rsqrtf kv wa wb w (wb + d) =
      w (wb + d) - eta * (rsqrtf (w (wb + 16 + d) + gb * gb) * gb) := by
  have hsep : wa + 32 ≤ wb ∨ wb + 32 ≤ wa := by omega
  unfold update_pair
  rw [d_steps_eq]
  simp only [List.foldl_cons, List.foldl_nil]
  rcases Nat.lt_or_ge d 8 with h8 | h8
  · rw [ubs_read_out eta lam rsqrtf kv wa wb _ 8 (wb + d)
      (by omega) (by omega) (by omega) (by omega)]
    exact ubs_read_wb eta lam rsqrtf kv wa wb w 0 d gb hgb h8 (Or.inl rfl) h32a h32b hne
  · have s1 : update_block_step eta lam rsqrtf kv wa wb w 0 (wa + 8 + (d - 8)) =
        w (wa + 8 + (d - 8)) :=
      ubs_read_out eta lam rsqrtf kv wa wb w 0 (wa + 8 + (d - 8))
        (by omega) (by omega) (by omega) (by omega)
    have s2 : update_block_step eta lam rsqrtf kv wa wb w 0 (wb + 8 + (d - 8)) =
        w (wb + 8 + (d - 8)) :=
      ubs_read_out eta lam rsqrtf kv wa wb w 0 (wb + 8 + (d - 8))
        (by omega) (by omega) (by omega) (by omega)
    have s4 : update_block_step eta lam rsqrtf kv wa wb w 0 (wb + 16 + 8 + (d - 8)) =
        w (wb + 16 + 8 + (d - 8)) :=
      ubs_read_out eta lam rsqrtf kv wa wb w 0 (wb + 16 + 8 + (d - 8))
        (by omega) (by omega) (by omega) (by omega)
    rw [show wb + d = wb + 8 + (d - 8) from by omega,
      show wb + 16 + d = wb + 16 + 8 + (d - 8) from by omega]
    rw [ubs_read_wb eta lam rsqrtf kv wa wb _ 8 (d - 8) gb
      (by rw [s1, s2, show wa + 8 + (d - 8) = wa + d from by omega,
        show wb + 8 + (d - 8) = wb + d from by omega]; exact hgb)
      (by omega) (Or.inr rfl) h32a h32b hne, s2, s4]

theorem update_pair_read_wga (eta lam : ℚ) (rsqrtf : ℚ → ℚ) (kv : ℚ) (wa wb : ℕ)
    (w : ℕ → ℚ) (d : ℕ) (ga : ℚ)
    (hga : ga = lam * w (wa + d) + kv * w (wb + d))
    (hd : d < 14) (h32a : wa % 32 = 0) (h32b : wb % 32 = 0) (hne : wa ≠ wb) :
    update_pair eta lam rsqrtf kv wa wb w (wa + 16 + d) =
      w (wa + 16 + d) + ga * ga := by
  have hsep : wa + 32 ≤ wb ∨ wb + 32 ≤ wa := by omega
  unfold update_pair
  rw [d_steps_eq]
  simp only [List.foldl_cons, List.foldl_nil]
  rcases Nat.lt_or_ge d 8 with h8 | h8
  · rw [ubs_read_out eta lam rsqrtf kv wa wb _ 8 (wa + 16 + d)
      (by omega) (by omega) (by omega) (by omega)]
    exact ubs_read_wga eta lam rsqrtf kv wa wb w 0 d ga hga h8 (Or.inl rfl) h32a h32b hne
  · have s1 : update_block_step eta lam rsqrtf kv wa wb w 0 (wa + 8 + (d - 8)) =
        w (wa + 8 + (d - 8)) :=
      ubs_read_out eta lam rsqrtf kv wa wb w 0 (wa + 8 + (d - 8))
        (by omega) (by omega) (by omega) (by omega)
    have s2 : update_block_step eta lam rsqrtf kv wa wb w 0 (wb + 8 + (d - 8)) =
        w (wb + 8 + (d - 8)) :=
      ubs_read_out eta lam rsqrtf kv wa wb w 0 (wb + 8 + (d - 8))
        (by omega) (by omega) (by omega) (by omega)
    have s3 : update_block_step eta lam rsqrtf kv wa wb w 0 (wa + 16 + 8 + (d - 8)) =
        w (wa + 16 + 8 + (d - 8)) :=
      ubs_read_out eta lam rsqrtf kv wa wb w 0 (wa + 16 + 8 + (d - 8))
        (by omega) (by omega) (by omega) (by omega)
    rw [show wa + 16 + d = wa + 16 + 8 + (d - 8) from by omega]
    rw [ubs_read_wga eta lam rsqrtf kv wa wb _ 8 (d - 8) ga
      (by rw [s1, s2, show wa + 8 + (d - 8) = wa + d from by omega,
        show wb + 8 + (d - 8) = wb + d from by omega]; exact hga)
      (by omega) (Or.inr rfl) h32a h32b hne, s3]

theorem update_pair_read_wgb (eta lam : ℚ) (rsqrtf : ℚ → ℚ) (kv : ℚ) (wa wb : ℕ)
    (w : ℕ → ℚ) (d : ℕ) (gb : ℚ)
    (hgb : gb = lam * w (wb + d) + kv * w (wa + d))
    (hd : d < 14) (h32a : wa % 32 = 0) (h32b : wb % 32 = 0) (hne : wa ≠ wb) :
    update_pair eta lam rsqrtf kv wa wb w (wb + 16 + d) =
      w (wb + 16 + d) + gb * gb := by
  have hsep : wa + 32 ≤ wb ∨ wb + 32 ≤ wa := by omega
  unfold update_pair
  rw [d_steps_eq]
  simp only [List.foldl_cons, List.foldl_nil]
  rcases Nat.lt_or_ge d 8 with h8 | h8
  · rw [ubs_read_out eta lam rsqrtf kv wa wb _ 8 (wb + 16 + d)
      (by omega) (by omega) (by omega) (by omega)]
    exact ubs_read_wgb eta lam rsqrtf kv wa wb w 0 d gb hgb h8
  · have s1 : update_block_step eta lam rsqrtf kv wa wb w 0 (wa + 8 + (d - 8)) =
        w (wa + 8 + (d - 8)) :=
      ubs_read_out eta lam rsqrtf kv wa wb w 0 (wa + 8 + (d - 8))
        (by omega) (by omega) (by omega) (by omega)
    have s2 : update_block_step eta lam rsqrtf kv wa wb w 0 (wb + 8 + (d - 8)) =
        w (wb + 8 + (d - 8)) :=
      ubs_read_out eta lam rsqrtf kv wa wb w 0 (wb + 8 + (d - 8))
        (by omega) (by omega) (by omega) (by omega)
    have s4 : update_block_step eta lam rsqrtf kv wa wb w 0 (wb + 16 + 8 + (d - 8)) =
        w (wb + 16 + 8 + (d - 8)) :=
      ubs_read_out eta lam rsqrtf kv wa wb w 0 (wb + 16 + 8 + (d - 8))
        (by omega) (by omega) (by omega) (by omega)
    rw [show wb + 16 + d = wb + 16 + 8 + (d - 8) from by omega]
    rw [ubs_read_wgb eta lam rsqrtf kv wa wb _ 8 (d - 8) gb
      (by rw [s1, s2, show wa + 8 + (d - 8) = wa + d from by omega,
        show wb + 8 + (d - 8) = wb + d from by omega]; exact hgb)
      (by omega), s4]

theorem update_pair_read_alias_w (eta lam : ℚ) (rsqrtf : ℚ → ℚ) (kv : ℚ) (wa : ℕ)
    (w : ℕ → ℚ) (d : ℕ) (g : ℚ)
    (hg : g = lam * w (wa + d) + kv * w (wa + d)) (hd : d < 14) :
    update_pair eta lam rsqrtf kv wa wa w (wa + d) =
      w (wa + d) - eta * (rsqrtf (w (wa + 16 + d) + g * g) * g) := by
  unfold update_pair
  rw [d_steps_eq]
  simp only [List.foldl_cons, List.foldl_nil]
  rcases Nat.lt_or_ge d 8 with h8 | h8
  · rw [ubs_read_out eta lam rsqrtf kv wa wa _ 8 (wa + d)
      (by omega) (by omega) (by omega) (by omega)]
    exact ubs_read_alias_w eta lam rsqrtf kv wa w 0 d g hg h8
  · have s1 : update_block_step eta lam rsqrtf kv wa wa w 0 (wa + 8 + (d - 8)) =
        w (wa + 8 + (d - 8)) :=
      ubs_read_out eta lam rsqrtf kv wa wa w 0 (wa + 8 + (d - 8))
        (by omega) (by omega) (by omega) (by omega)
    have s3 : update_block_step eta lam rsqrtf kv wa wa w 0 (wa + 16 + 8 + (d - 8)) =
        w (wa + 16 + 8 + (d - 8)) :=
      ubs_read_out eta lam rsqrtf kv wa wa w 0 (wa + 16 + 8 + (d - 8))
        (by omega) (by omega) (by omega) (by omega)
    rw [show wa + d = wa + 8 + (d - 8) from by omega,
      show wa + 16 + d = wa + 16 + 8 + (d - 8) from by omega]
    rw [ubs_read_alias_w eta lam rsqrtf kv wa _ 8 (d - 8) g
      (by rw [s1, show wa + 8 + (d - 8) = wa + d from by omega]; exact hg)
      (by omega), s1, s3]

theorem update_pair_read_alias_acc (eta lam : ℚ) (rsqrtf : ℚ → ℚ) (kv : ℚ) (wa : ℕ)
    (w : ℕ → ℚ) (d : ℕ) (g : ℚ)
    (hg : g = lam * w (wa + d) + kv * w (wa + d)) (hd : d < 14) :
    update_pair eta lam rsqrtf kv wa wa w (wa + 16 + d) =
      w (wa + 16 + d) + g * g := by
  unfold update_pair
  rw [d_steps_eq]
  simp only [List.foldl_cons, List.foldl_nil]
  rcases Nat.lt_or_ge d 8 with h8 | h8
  · rw [ubs_read_out eta lam rsqrtf kv wa wa _ 8 (wa + 16 + d)
      (by omega) (by omega) (by omega) (by omega)]
    exact ubs_read_alias_acc eta lam rsqrtf kv wa w 0 d g hg h8
  · have s1 : update_block_step eta lam rsqrtf kv wa wa w 0 (wa + 8 + (d - 8)) =
        w (wa + 8 + (d - 8)) :=
      ubs_read_out eta lam rsqrtf kv wa wa w 0 (wa + 8 + (d - 8))
        (by omega) (by omega) (by omega) (by omega)
    have s3 : update_block_step eta lam rsqrtf kv wa wa w 0 (wa + 16 + 8 + (d - 8)) =
        w (wa + 16 + 8 + (d - 8)) :=
      ubs_read_out eta lam rsqrtf kv wa wa w 0 (wa + 16 + 8 + (d - 8))
        (by omega) (by omega) (by omega) (by omega)
    rw [show wa + 16 + d = wa + 16 + 8 + (d - 8) from by omega]
    rw [ubs_read_alias_acc eta lam rsqrtf kv wa _ 8 (d - 8) g
      (by rw [s1, show wa + 8 + (d - 8) = wa + d from by omega]; exact hg)
      (by omega), s3]

/-- C3: for a mask-enabled, field-eligible pair with distinct interaction
blocks, update changes every one of the first n_dim lanes of both blocks,
in both directions: the accumulator lane becomes g_acc + grad^2 and the
weight lane becomes w_self - eta * grad / sqrt(g_acc + grad^2) (the
already-incremented accumulator under the square root), where grad =
lambda * w_self + (kappa * value_a * value_b / norm) * w_other and both
direction gradients read the pre-update weights of the other block. -/
theorem update_pair_gradients (m : Model) (hb : ℕ) (mask : ℕ → ℕ) (sqrtf rsqrtf : ℚ → ℚ)
    (norm kappa : ℚ) (fb fa : Feature) (wa wb : ℕ) (kv ga gb : ℚ) (d : ℕ)
    (hwa : wa = fa.index % 2 ^ hb * index_stride + fb.index / 2 ^ hb * field_stride)
    (hwb : wb = fb.index % 2 ^ hb * index_stride + fa.index / 2 ^ hb * field_stride)
    (hkv : kv = kappa * fa.value * fb.value / norm)
    (hga : ga = m.lambda * m.weights (wa + d) + kv * m.weights (wb + d))
    (hgb : gb = m.lambda * m.weights (wb + d) + kv * m.weights (wa + d))
    (hfa : ¬ fa.index / 2 ^ hb < m.min_a_field)
    (hfb : ¬ fb.index / 2 ^ hb > m.max_b_field)
    (hbit : ¬ test_mask_bit mask 0 = 0)
    (hr : ∀ x, rsqrtf x = (sqrtf x)⁻¹)
    (hne : wa ≠ wb) (hd : d < n_dim) :
    (update m hb [fb, fa] norm kappa mask sqrtf rsqrtf).weights (wa + n_dim_aligned + d) =
        m.weights (wa + n_dim_aligned + d) + ga * ga ∧
    (update m hb [fb, fa] norm kappa mask sqrtf rsqrtf).weights (wa + d) =
        m.weights (wa + d) - m.eta * ga / sqrtf (m.weights (wa + n_dim_aligned + d) + ga * ga) ∧
    (update m hb [fb, fa] norm kappa mask sqrtf rsqrtf).weights (wb + n_dim_aligned + d) =
        m.weights (wb + n_dim_aligned + d) + gb * gb ∧
    (update m hb [fb, fa] norm kappa mask sqrtf rsqrtf).weights (wb + d) =
        m.weights (wb + d) - m.eta * gb / sqrtf (m.weights (wb + n_dim_aligned + d) + gb * gb) := by
  have h32a : wa % 32 = 0 := by rw [hwa, index_stride_eq, field_stride_eq]; omega
  have h32b : wb % 32 = 0 := by rw [hwb, index_stride_eq, field_stride_eq]; omega
  have hu := update_two_weights m hb mask sqrtf rsqrtf norm kappa fb fa hfa hfb hbit
  rw [← hwa, ← hwb, ← hkv] at hu
  rw [n_dim_aligned_eq]
  rw [n_dim_eq] at hd
  refine ⟨?_, ?_, ?_, ?_⟩
  · rw [hu]
    exact update_pair_read_wga m.eta m.lambda rsqrtf kv wa wb m.weights d ga hga hd h32a h32b hne
  · rw [hu, update_pair_read_wa m.eta m.lambda rsqrtf kv wa wb m.weights d ga hga hd h32a h32b hne,
      hr]
    ring
  · rw [hu]
    exact update_pair_read_wgb m.eta m.lambda rsqrtf kv wa wb m.weights d gb hgb hd h32a h32b hne
  · rw [hu, update_pair_read_wb m.eta m.lambda rsqrtf kv wa wb m.weights d gb hgb hd h32a h32b hne,
      hr]
    ring

theorem update_pair_gradients_witness :
    (update m3 1 [⟨1, 3⟩, ⟨2, 2⟩] 1 1 (fun _ => 1) id (fun x => x⁻¹)).weights (0 + n_dim_aligned + 0) =
        m3.weights (0 + n_dim_aligned + 0) + 6 * 6 ∧
    (update m3 1 [⟨1, 3⟩, ⟨2, 2⟩] 1 1 (fun _ => 1) id (fun x => x⁻¹)).weights (0 + 0) =
        m3.weights (0 + 0) - m3.eta * 6 / id (m3.weights (0 + n_dim_aligned + 0) + 6 * 6) ∧
    (update m3 1 [⟨1, 3⟩, ⟨2, 2⟩] 1 1 (fun _ => 1) id (fun x => x⁻¹)).weights (992 + n_dim_aligned + 0) =
        m3.weights (992 + n_dim_aligned + 0) + 6 * 6 ∧
    (update m3 1 [⟨1, 3⟩, ⟨2, 2⟩] 1 1 (fun _ => 1) id (fun x => x⁻¹)).weights (992 + 0) =
        m3.weights (992 + 0) - m3.eta * 6 / id (m3.weights (992 + n_dim_aligned + 0) + 6 * 6) :=
  update_pair_gradients m3 1 (fun _ => 1) id (fun x => x⁻¹) 1 1 ⟨1, 3⟩ ⟨2, 2⟩ 0 992 6 6 6 0
    (by decide) (by decide) (by norm_num) (by norm_num [m3]) (by norm_num [m3])
    (by decide) (by decide) (by decide) (fun _ => rfl) (by decide) (by decide)

/-- C10: for a mask-enabled pair whose two features decode to the same
feature id and field id, both direction gradients are the same expression
over the single shared pre-update block, the wb-direction store overwrites
the wa-direction store with the identical value, and the shared block ends
with exactly one gradient step: its accumulator lane grows by grad^2 once
and its weight lane takes one step of eta * (rsqrt(acc + grad^2) * grad). -/
theorem update_aliased_pair (m : Model) (hb : ℕ) (mask : ℕ → ℕ) (sqrtf rsqrtf : ℚ → ℚ)
    (norm kappa : ℚ) (fb fa : Feature) (addr : ℕ) (kv g : ℚ) (d : ℕ)
    (hid : fb.index % 2 ^ hb = fa.index % 2 ^ hb)
    (hfld : fb.index / 2 ^ hb = fa.index / 2 ^ hb)
    (haddr : addr = fa.index % 2 ^ hb * index_stride + fa.index / 2 ^ hb * field_stride)
    (hkv : kv = kappa * fa.value * fb.value / norm)
    (hg : g = m.lambda * m.weights (addr + d) + kv * m.weights (addr + d))
    (hfa : ¬ fa.index / 2 ^ hb < m.min_a_field)
    (hfb : ¬ fb.index / 2 ^ hb > m.max_b_field)
    (hbit : ¬ test_mask_bit mask 0 = 0)
    (hd : d < n_dim) :
    (update m hb [fb, fa] norm kappa mask sqrtf rsqrtf).weights (addr + n_dim_aligned + d) =
        m.weights (addr + n_dim_aligned + d) + g * g ∧
    (update m hb [fb, fa] norm kappa mask sqrtf rsqrtf).weights (addr + d) =
        m.weights (addr + d) -
          m.eta * (rsqrtf (m.weights (addr + n_dim_aligned + d) + g * g) * g) := by
  have hu := update_two_weights m hb mask sqrtf rsqrtf norm kappa fb fa hfa hfb hbit
  rw [hid, hfld, ← haddr, ← hkv] at hu
  rw [n_dim_aligned_eq]
  rw [n_dim_eq] at hd
  constructor
  · rw [hu]
    exact update_pair_read_alias_acc m.eta m.lambda rsqrtf kv addr m.weights d g hg hd
  · rw [hu]
    exact update_pair_read_alias_w m.eta m.lambda rsqrtf kv addr m.weights d g hg hd

theorem update_aliased_pair_witness :
    (update m3 1 [⟨2, 5⟩, ⟨2, 7⟩] 1 1 (fun _ => 1) id (fun x => x⁻¹)).weights (32 + n_dim_aligned + 0) =
        m3.weights (32 + n_dim_aligned + 0) + 35 * 35 ∧
    (update m3 1 [⟨2, 5⟩, ⟨2, 7⟩] 1 1 (fun _ => 1) id (fun x => x⁻¹)).weights (32 + 0) =
        m3.weights (32 + 0) -
          m3.eta * ((m3.weights (32 + n_dim_aligned + 0) + 35 * 35)⁻¹ * 35) :=
  update_aliased_pair m3 1 (fun _ => 1) id (fun x => x⁻¹) 1 1 ⟨2, 5⟩ ⟨2, 7⟩ 32 35 35 0
    (by decide) (by decide) (by decide) (by norm_num) (by norm_num [m3])
    (by decide) (by decide) (by decide) (by decide)

theorem fin_mk_val (a : ℕ) (h : a < 8) : ((⟨a, h⟩ : Fin 8) : ℕ) = a := rfl

theorem ubs_pad (eta lam : ℚ) (rsqrtf : ℚ → ℚ) (kv : ℚ) (wa wb : ℕ)
    (w : ℕ → ℚ) (d : ℕ) (hd : d = 0 ∨ d = 8)
    (h32a : wa % 32 = 0) (h32b : wb % 32 = 0) (hw : pad_zero w) :
    pad_zero (update_block_step eta lam rsqrtf kv wa wb w d) := by
  intro k hk1 hk2
  simp only [n_dim_eq, n_dim_aligned_eq] at hk1 hk2
  simp only [update_block_step, store8, load8, n_dim_aligned_eq, fin_mk_val]
  split_ifs with h4 h3 h2 h1
  · exfalso; omega
  · exfalso; omega
  · rw [show wb + d + (k - (wb + d)) = k from by omega]
    rw [hw k (by simp only [n_dim_eq, n_dim_aligned_eq]; omega)
      (by simp only [n_dim_eq, n_dim_aligned_eq]; omega)]
    rw [hw (wa + d + (k - (wb + d))) (by simp only [n_dim_eq, n_dim_aligned_eq]; omega)
      (by simp only [n_dim_eq, n_dim_aligned_eq]; omega)]
    ring
  · rw [show wa + d + (k - (wa + d)) = k from by omega]
    rw [hw k (by simp only [n_dim_eq, n_dim_aligned_eq]; omega)
      (by simp only [n_dim_eq, n_dim_aligned_eq]; omega)]
    rw [hw (wb + d + (k - (wa + d))) (by simp only [n_dim_eq, n_dim_aligned_eq]; omega)
      (by simp only [n_dim_eq, n_dim_aligned_eq]; omega)]
    ring
  · exact hw k (by simp only [n_dim_eq, n_dim_aligned_eq]; omega)
      (by simp only [n_dim_eq, n_dim_aligned_eq]; omega)

theorem update_pair_pad (eta lam : ℚ) (rsqrtf : ℚ → ℚ) (kv : ℚ) (wa wb : ℕ)
    (w : ℕ → ℚ) (h32a : wa % 32 = 0) (h32b : wb % 32 = 0) (hw : pad_zero w) :
    pad_zero (update_pair eta lam rsqrtf kv wa wb w) := by
  unfold update_pair
  rw [d_steps_eq]
  simp only [List.foldl_cons, List.foldl_nil]
  exact ubs_pad eta lam rsqrtf kv wa wb _ 8 (Or.inr rfl) h32a h32b
    (ubs_pad eta lam rsqrtf kv wa wb w 0 (Or.inl rfl) h32a h32b hw)

theorem update_inner_pad (m : Model) (hb : ℕ) (mask : ℕ → ℕ) (rsqrtf : ℚ → ℚ)
    (ia fa : ℕ) (va norm kappa : ℚ) (fs : List Feature) : ∀ (w : ℕ → ℚ) (i : ℕ),
    pad_zero w → pad_zero (update_inner m hb mask rsqrtf ia fa va norm kappa fs w i).1 := by
  induction fs with
  | nil => intro w i hw; exact hw
  | cons fb rest ih =>
    intro w i hw
    simp only [update_inner]
    by_cases h1 : fb.index / 2 ^ hb > m.max_b_field
    · rw [if_pos h1]; exact hw
    · rw [if_neg h1]
      by_cases h2 : test_mask_bit mask i = 0
      · rw [if_pos h2]; exact ih _ _ hw
      · rw [if_neg h2]
        refine ih _ _ (update_pair_pad _ _ _ _ _ _ _ ?_ ?_ hw)
        · simp only [index_stride_eq, field_stride_eq]; omega
        · simp only [index_stride_eq, field_stride_eq]; omega

theorem update_outer_pad (m : Model) (hb : ℕ) (mask : ℕ → ℕ) (sqrtf rsqrtf : ℚ → ℚ)
    (norm ln kappa : ℚ) (fs : List Feature) :
    ∀ (prev : List Feature) (w lw : ℕ → ℚ) (i : ℕ), pad_zero w →
    pad_zero (update_outer m hb mask sqrtf rsqrtf norm ln kappa prev fs w lw i).1 := by
  induction fs with
  | nil => intro prev w lw i hw; exact hw
  | cons fa rest ih =>
    intro prev w lw i hw
    simp only [update_outer]
    by_cases h1 : fa.index / 2 ^ hb < m.min_a_field
    · rw [if_pos h1]; exact ih _ _ _ _ hw
    · rw [if_neg h1]
      exact ih _ _ _ _ (update_inner_pad m hb mask rsqrtf _ _ _ norm kappa prev w i hw)

/-- C4: the padding lanes [n_dim, n_dim_aligned) of every interaction
block are zero right after construction (init_weights writes them as 0),
and update preserves the all-padding-zero invariant: the d = 8 vector
stores do cover lanes 14 and 15, but there they store
0 - eta * (rsqrt(acc) * (lambda * 0 + kv * 0)) = 0 again. -/
theorem padding_invariant (gen : ℕ → ℚ) (m : Model) (hb : ℕ) (fs : List Feature)
    (norm kappa : ℚ) (mask : ℕ → ℕ) (sqrtf rsqrtf : ℚ → ℚ)
    (hm : pad_zero m.weights) :
    pad_zero (init_weights gen) ∧
    pad_zero ((update m hb fs norm kappa mask sqrtf rsqrtf).weights) := by
  constructor
  · intro k h1 h2
    simp only [n_dim_eq, n_dim_aligned_eq] at h1 h2
    simp only [init_weights, n_dim_eq, n_dim_aligned_eq]
    split_ifs <;> first | rfl | (exfalso; omega)
  · simp only [update]
    exact update_outer_pad m hb mask sqrtf rsqrtf norm _ kappa fs [] m.weights
      m.linear_weights 0 hm

theorem padding_invariant_witness :
    init_weights (fun _ => 0) 14 = 0 ∧
    (update m1 1 [⟨0, 1⟩] 1 1 (fun _ => 1) id id).weights 14 = 0 :=
  ⟨(padding_invariant (fun _ => 0) m1 1 [⟨0, 1⟩] 1 1 (fun _ => 1) id id
      (fun _ _ _ => rfl)).1 14 (by decide) (by decide),
   (padding_invariant (fun _ => 0) m1 1 [⟨0, 1⟩] 1 1 (fun _ => 1) id id
      (fun _ _ _ => rfl)).2 14 (by decide) (by decide)⟩

end FFM
